import Mathlib

/-!
A shallow embedding of the asynchronous task lifecycle and persistence
subsystem of the `gravity` video downloader backend, together with proofs
of the specification's claims about it.

Embedded source files:
- `backend/app/models/schemas.py` (data model: `TaskStatus`,
  `DownloadOptions`, `DownloadTask`),
- `backend/app/services/task_storage.py` (the Redis-backed task store and
  the bounded download-history sorted set),
- `backend/app/services/task_storage_service.py` (the synchronous wrapper,
  in particular `update_task_progress`),
- `backend/app/tasks/download_tasks.py` (the Celery worker: the sequence
  of store/history operations it issues and its retry/backoff decision).

Modelling conventions:
- Redis hash values are strings; fields whose string rendering is done by
  an external library (JSON rendering of the options object, ISO-8601
  rendering of datetimes) are modelled at the abstract-syntax level: the
  options field is stored as a small `Json` value (mirroring
  `options.model_dump_json()` / `DownloadOptions(**json.loads(s))`), and
  datetimes are stored as integer timestamps (the stdlib round-trip
  `datetime.fromisoformat(d.isoformat()) = d` is the identity here).
- The Redis key space is a function from key strings to optional
  hash-with-TTL pairs; the history sorted set is a list kept in Redis
  rank order reversed (highest score first, score ties ordered by the
  lexicographically greater member first), which is the order
  `ZREVRANGE` reads and in which `ZREMRANGEBYRANK 0 (c-1)` drops the
  trailing `c` elements.
- Sorted-set scores are `datetime.now().timestamp()` doubles in the
  source; they are modelled as integers, which preserves everything the
  claims depend on (ordering and ties).
-/

namespace Gravity

/-- `TaskStatus` enumeration from `backend/app/models/schemas.py`. -/
inductive TaskStatus where
  | PENDING
  | DOWNLOADING
  | COMPLETED
  | FAILED
deriving DecidableEq, Repr

/-- The `.value` of the `str`-valued enum `TaskStatus`. -/
def TaskStatus.value : TaskStatus → String
  | .PENDING => "PENDING"
  | .DOWNLOADING => "DOWNLOADING"
  | .COMPLETED => "COMPLETED"
  | .FAILED => "FAILED"

/-- The enum constructor `TaskStatus(s)`: succeeds exactly on the four
member values, mirroring `TaskStatus(task_data["status"])` in
`retrieve_task`. -/
def TaskStatus.ofString (s : String) : Option TaskStatus :=
  if s = "PENDING" then some .PENDING
  else if s = "DOWNLOADING" then some .DOWNLOADING
  else if s = "COMPLETED" then some .COMPLETED
  else if s = "FAILED" then some .FAILED
  else none

/-- A terminal status: `COMPLETED` or `FAILED`. -/
def TaskStatus.isTerminal : TaskStatus → Bool
  | .COMPLETED => true
  | .FAILED => true
  | _ => false

/-- `DownloadOptions` from `backend/app/models/schemas.py`:
`quality : str = "best"`, `format : str = "video"`,
`audio_format : Optional[str] = "mp3"`. -/
structure DownloadOptions where
  quality : String
  format : String
  audio_format : Option String
deriving DecidableEq, Repr

/-- The pydantic validators on `DownloadOptions`: `format` must be
`"video"` or `"audio"`, and when `format == "audio"` the `audio_format`
must be `"mp3"` or `"m4a"`. -/
def DownloadOptions.Valid (o : DownloadOptions) : Prop :=
  (o.format = "video" ∨ o.format = "audio") ∧
  (o.format = "audio" → o.audio_format = some "mp3" ∨ o.audio_format = some "m4a")

instance (o : DownloadOptions) : Decidable o.Valid := by
  unfold DownloadOptions.Valid; infer_instance

/-- A primitive JSON value: the field values `model_dump_json` emits for
`DownloadOptions` are strings or null. -/
inductive JPrim where
  | str (s : String)
  | null
deriving DecidableEq, Repr

/-- A small JSON value universe, enough for the serialized form of
`DownloadOptions` (an object with string-or-null fields) and for
non-object junk a corrupted hash could hold. -/
inductive Json where
  | prim (p : JPrim)
  | obj (fields : List (String × JPrim))
deriving DecidableEq, Repr

/-- Field lookup in a JSON object (`dict.get` on the parsed object). -/
def Json.field (j : Json) (k : String) : Option JPrim :=
  match j with
  | .obj fs => fs.lookup k
  | _ => none

/-- `options.model_dump_json()`: the serialized `DownloadOptions`,
modelled at the JSON abstract-syntax level. -/
def encodeOptions (o : DownloadOptions) : Json :=
  .obj [("quality", .str o.quality),
        ("format", .str o.format),
        ("audio_format", match o.audio_format with
                         | some s => .str s
                         | none => .null)]

/-- `DownloadOptions(**json.loads(s))` as performed by `retrieve_task`:
read each field with its pydantic default when absent
(`quality = "best"`, `format = "video"`, `audio_format = "mp3"`), fail on
a wrongly-typed field, then run the two validators. -/
def decodeOptions (j : Json) : Option DownloadOptions :=
  match j with
  | .obj _ =>
    let qualityV : Option String :=
      match j.field "quality" with
      | some (.str s) => some s
      | none => some "best"
      | some .null => none
    let formatV : Option String :=
      match j.field "format" with
      | some (.str s) => some s
      | none => some "video"
      | some .null => none
    let audioV : Option (Option String) :=
      match j.field "audio_format" with
      | some (.str s) => some (some s)
      | some .null => some none
      | none => some (some "mp3")
    match qualityV, formatV, audioV with
    | some q, some f, some a =>
      if f = "video" ∨ f = "audio" then
        if f = "audio" ∧ ¬(a = some "mp3" ∨ a = some "m4a") then none
        else some ⟨q, f, a⟩
      else none
    | _, _, _ => none
  | _ => none

/-- `DownloadTask` from `backend/app/models/schemas.py`. Datetimes are
modelled as integer timestamps. -/
structure DownloadTask where
  task_id : String
  url : String
  status : TaskStatus
  progress : String
  title : String
  file_path : String
  download_url : String
  error_message : String
  options : DownloadOptions
  created_at : Int
  updated_at : Int
deriving DecidableEq, Repr

/-- The Redis hash stored under `task:` ++ id by `store_task`: one entry
per hash field, values as serialized by the source (`status.value`,
`options.model_dump_json()`, ISO datetimes). -/
structure TaskHash where
  url : String
  status : String
  progress : String
  title : String
  file_path : String
  download_url : String
  error_message : String
  options : Json
  created_at : Int
  updated_at : Int
deriving DecidableEq, Repr

/-- `TASK_TTL_SECONDS = 7 * 24 * 60 * 60` from `task_storage.py`. -/
def TASK_TTL_SECONDS : Nat := 7 * 24 * 60 * 60

/-- `MAX_HISTORY_SIZE = 20` from `task_storage.py`. -/
def MAX_HISTORY_SIZE : Nat := 20

/-- A history sorted-set entry: member id and score. -/
abbrev HEntry := String × Int

/-- The Redis state the embedded operations touch: the `task:` ++ id key
space (hash plus remaining TTL in seconds) and the
`history:downloads` sorted set, kept highest-score-first (score ties:
lexicographically greater member first), i.e. Redis rank order
reversed. -/
structure RedisState where
  tasks : String → Option (TaskHash × Nat)
  history : List HEntry

/-- The hash fields written by `store_task` for a task. -/
def taskToHash (t : DownloadTask) : TaskHash :=
  { url := t.url
    status := t.status.value
    progress := t.progress
    title := t.title
    file_path := t.file_path
    download_url := t.download_url
    error_message := t.error_message
    options := encodeOptions t.options
    created_at := t.created_at
    updated_at := t.updated_at }

/-- `store_task`: `HSET task:‹id› mapping` followed by
`EXPIRE task:‹id› TASK_TTL_SECONDS`, unconditionally, returning `True`.
There is no existence check before the write. -/
def store_task (st : RedisState) (t : DownloadTask) : Bool × RedisState :=
  let key := "task:" ++ t.task_id
  (true,
   { st with tasks := fun k =>
       if k = key then some (taskToHash t, TASK_TTL_SECONDS) else st.tasks k })

/-- Parsing a stored hash back into a `DownloadTask`
(`retrieve_task`, lines 119-143): rebuild the options from their
serialized form, the status via the enum constructor; a parse failure is
a `TaskStorageError` (`none` here, the found/parse-error distinction is
kept in `retrieve_task` below). -/
def hashToTask (task_id : String) (h : TaskHash) : Option DownloadTask :=
  match decodeOptions h.options, TaskStatus.ofString h.status with
  | some opts, some s =>
    some { task_id := task_id
           url := h.url
           status := s
           progress := h.progress
           title := h.title
           file_path := h.file_path
           download_url := h.download_url
           error_message := h.error_message
           options := opts
           created_at := h.created_at
           updated_at := h.updated_at }
  | _, _ => none

/-- `retrieve_task` on the task key space: `HGETALL task:‹id›`; an empty
result is "not found" (`.ok none`), a hash that fails to parse raises
`TaskStorageError` (`.error ()`), otherwise the task is returned. -/
def retrieveT (tasks : String → Option (TaskHash × Nat))
    (task_id : String) : Except Unit (Option DownloadTask) :=
  match tasks ("task:" ++ task_id) with
  | none => .ok none
  | some (h, _) =>
    match hashToTask task_id h with
    | some t => .ok (some t)
    | none => .error ()

/-- `retrieve_task` (task_storage.py, lines 89-152); `get_task` is an
alias for it (lines 557-571). -/
def retrieve_task (st : RedisState) (task_id : String) :
    Except Unit (Option DownloadTask) :=
  retrieveT st.tasks task_id

/-- The optional keyword arguments of `update_task_status`
(`progress`, `error_message`, `title`, `file_path`, `download_url`);
`none` models an argument left at its `None` default. -/
structure UpdateFields where
  progress : Option String
  error_message : Option String
  title : Option String
  file_path : Option String
  download_url : Option String
deriving DecidableEq, Repr

/-- The hash after `HSET` with the update mapping of `update_task_status`
(lines 196-217): `status` and `updated_at` always written, each optional
argument written only when not `None`; all other fields untouched. -/
def applyUpdate (h : TaskHash) (status : TaskStatus) (f : UpdateFields)
    (now : Int) : TaskHash :=
  { h with
    status := status.value
    updated_at := now
    progress := f.progress.getD h.progress
    error_message := f.error_message.getD h.error_message
    title := f.title.getD h.title
    file_path := f.file_path.getD h.file_path
    download_url := f.download_url.getD h.download_url }

/-- `update_task_status`: `EXISTS task:‹id›` first — a missing id returns
`False` with no write; otherwise `HSET` the update mapping (with
`updated_at = datetime.now()`) and re-arm the TTL with
`EXPIRE task:‹id› TASK_TTL_SECONDS`, returning `True`. -/
def update_task_status (st : RedisState) (task_id : String)
    (status : TaskStatus) (f : UpdateFields) (now : Int) :
    Bool × RedisState :=
  let key := "task:" ++ task_id
  match st.tasks key with
  | none => (false, st)
  | some (h, _) =>
    (true,
     { st with tasks := fun k =>
         if k = key then some (applyUpdate h status f now, TASK_TTL_SECONDS)
         else st.tasks k })

/-- The all-`None` optional arguments. -/
def noFields : UpdateFields :=
  { progress := none, error_message := none, title := none
    file_path := none, download_url := none }

/-- `TaskStorage.update_task_progress` (task_storage_service.py, lines
241-252): delegates to `update_task_status` with status `DOWNLOADING` and
only the `progress` keyword set. -/
def update_task_progress (st : RedisState) (task_id : String)
    (progress : String) (now : Int) : Bool × RedisState :=
  update_task_status st task_id .DOWNLOADING
    { noFields with progress := some progress } now

/-! ## History index (`history:downloads` sorted set) -/

/-- The lexicographic (byte-wise) comparison Redis applies to sorted-set
members with equal scores, as an executable character-list comparison. -/
def charListLt : List Char → List Char → Bool
  | [], [] => false
  | [], _ :: _ => true
  | _ :: _, [] => false
  | c :: cs, d :: ds =>
    if c.toNat < d.toNat then true
    else if d.toNat < c.toNat then false
    else charListLt cs ds

/-- Lexicographic order on member id strings. -/
def strLt (a b : String) : Bool := charListLt a.data b.data

theorem charListLt_cons (c d : Char) (cs ds : List Char) :
    charListLt (c :: cs) (d :: ds) =
      if c.toNat < d.toNat then true
      else if d.toNat < c.toNat then false
      else charListLt cs ds := rfl

theorem charListLt_trans : ∀ {a b c : List Char},
    charListLt a b = true → charListLt b c = true → charListLt a c = true := by
  intro a
  induction a with
  | nil =>
    intro b c h₁ h₂
    cases b with
    | nil => simp [charListLt] at h₁
    | cons y ys =>
      cases c with
      | nil => simp [charListLt] at h₂
      | cons z zs => simp [charListLt]
  | cons x xs ih =>
    intro b c h₁ h₂
    cases b with
    | nil => simp [charListLt] at h₁
    | cons y ys =>
      cases c with
      | nil => simp [charListLt] at h₂
      | cons z zs =>
        rw [charListLt_cons] at h₁ h₂ ⊢
        by_cases hxy : x.toNat < y.toNat
        · by_cases hyz : y.toNat < z.toNat
          · rw [if_pos (hxy.trans hyz)]
          · rw [if_neg hyz] at h₂
            by_cases hzy : z.toNat < y.toNat
            · rw [if_pos hzy] at h₂; simp at h₂
            · rw [if_pos (by omega : x.toNat < z.toNat)]
        · rw [if_neg hxy] at h₁
          by_cases hyx : y.toNat < x.toNat
          · rw [if_pos hyx] at h₁; simp at h₁
          · rw [if_neg hyx] at h₁
            by_cases hyz : y.toNat < z.toNat
            · rw [if_pos (by omega : x.toNat < z.toNat)]
            · rw [if_neg hyz] at h₂
              by_cases hzy : z.toNat < y.toNat
              · rw [if_pos hzy] at h₂; simp at h₂
              · rw [if_neg hzy] at h₂
                rw [if_neg (by omega : ¬ x.toNat < z.toNat),
                  if_neg (by omega : ¬ z.toNat < x.toNat)]
                exact ih h₁ h₂

theorem charToNat_inj {c d : Char} (h : c.toNat = d.toNat) : c = d := by
  apply Char.ext
  apply UInt32.ext
  unfold Char.toNat at h
  exact h

theorem charListLt_antisymm : ∀ {a b : List Char},
    charListLt a b = false → charListLt b a = false → a = b := by
  intro a
  induction a with
  | nil =>
    intro b h₁ _
    cases b with
    | nil => rfl
    | cons y ys => simp [charListLt] at h₁
  | cons x xs ih =>
    intro b h₁ h₂
    cases b with
    | nil => simp [charListLt] at h₂
    | cons y ys =>
      rw [charListLt_cons] at h₁ h₂
      by_cases hxy : x.toNat < y.toNat
      · rw [if_pos hxy] at h₁; simp at h₁
      · rw [if_neg hxy] at h₁
        by_cases hyx : y.toNat < x.toNat
        · rw [if_pos hyx] at h₂; simp at h₂
        · rw [if_neg hyx] at h₁
          rw [if_neg hyx, if_neg hxy] at h₂
          rw [charToNat_inj (by omega : x.toNat = y.toNat), ih h₁ h₂]

theorem strLt_trans {a b c : String} (h₁ : strLt a b = true)
    (h₂ : strLt b c = true) : strLt a c = true :=
  charListLt_trans h₁ h₂

theorem strLt_antisymm {a b : String} (h₁ : strLt a b = false)
    (h₂ : strLt b a = false) : a = b :=
  String.ext (charListLt_antisymm h₁ h₂)

/-- Entry `x` ranks strictly after entry `y` when read most-recent-first:
higher score first, score ties broken by the lexicographically greater
member id first. This is the reverse of Redis sorted-set rank order
(ascending score, ties ascending member). -/
def hAfter (x y : HEntry) : Prop :=
  y.2 < x.2 ∨ (x.2 = y.2 ∧ strLt y.1 x.1 = true)

instance (x y : HEntry) : Decidable (hAfter x y) := by
  unfold hAfter; infer_instance

/-- Non-strict version of `hAfter`. -/
def hGe (x y : HEntry) : Prop := hAfter x y ∨ x = y

/-- Insertion into a most-recent-first list at the rank the entry's
(score, member) pair gives it. -/
def insertEntry (x : HEntry) : List HEntry → List HEntry
  | [] => [x]
  | y :: ys => if hAfter x y then x :: y :: ys else y :: insertEntry x ys

/-- `ZADD history:downloads {task_id: score}`: a sorted set has at most
one entry per member, so any previous entry for the member is replaced,
and the entry is placed at its rank. -/
def zadd (hist : List HEntry) (id : String) (score : Int) : List HEntry :=
  insertEntry (id, score) (hist.filter fun e => e.1 != id)

/-- `add_task_to_history` (task_storage.py, lines 344-395): `ZADD` the id
with the current timestamp as score, then if `ZCARD` exceeds
`MAX_HISTORY_SIZE`, `ZREMRANGEBYRANK 0 (count - MAX - 1)` removes the
lowest-scored entries — in most-recent-first order, keep the first
`MAX_HISTORY_SIZE`. -/
def add_task_to_history (hist : List HEntry) (task_id : String)
    (now : Int) : List HEntry :=
  if MAX_HISTORY_SIZE < (zadd hist task_id now).length
  then (zadd hist task_id now).take MAX_HISTORY_SIZE
  else zadd hist task_id now

/-- The history produced by a sequence of `add_task_to_history` calls
starting from an empty index. -/
def runHistory (ins : List HEntry) : List HEntry :=
  ins.foldl (fun h e => add_task_to_history h e.1 e.2) []

/-- The same insertion sequence ordered by rank without any trimming:
plain insertion sort by `hAfter`, processed in call order. -/
def sortEntries (ins : List HEntry) : List HEntry :=
  ins.foldl (fun h e => insertEntry e h) []

theorem insertEntry_length (x : HEntry) (l : List HEntry) :
    (insertEntry x l).length = l.length + 1 := by
  induction l with
  | nil => rfl
  | cons y ys ih =>
    simp only [insertEntry]
    split <;> simp [ih]

theorem add_task_to_history_length_le (hist : List HEntry) (id : String)
    (now : Int) :
    (add_task_to_history hist id now).length ≤ MAX_HISTORY_SIZE := by
  unfold add_task_to_history
  split
  · simp
  · omega

theorem runHistory_length_le (ins : List HEntry) :
    (runHistory ins).length ≤ MAX_HISTORY_SIZE := by
  unfold runHistory
  induction ins using List.reverseRecOn with
  | nil => simp [MAX_HISTORY_SIZE]
  | append_singleton l x _ =>
    rw [List.foldl_append]
    exact add_task_to_history_length_le _ _ _

theorem take_insertEntry (l : List HEntry) :
    ∀ (k : Nat) (x : HEntry),
      (insertEntry x (l.take k)).take k = (insertEntry x l).take k := by
  induction l with
  | nil => intro k x; simp
  | cons y ys ih =>
    intro k x
    cases k with
    | zero => simp
    | succ n =>
      simp only [List.take_succ_cons, insertEntry]
      split
      · simp only [List.take_succ_cons]
        cases n with
        | zero => simp
        | succ m =>
          simp only [List.take_succ_cons, List.take_take,
            Nat.min_eq_left (Nat.le_succ m)]
      · simp only [List.take_succ_cons, ih n x]

theorem mem_insertEntry {a x : HEntry} {l : List HEntry}
    (h : a ∈ insertEntry x l) : a = x ∨ a ∈ l := by
  induction l with
  | nil => simpa [insertEntry] using h
  | cons y ys ih =>
    simp only [insertEntry] at h
    split at h
    · simpa using h
    · rcases List.mem_cons.1 h with h | h
      · exact Or.inr (by simp [h])
      · rcases ih h with h | h
        · exact Or.inl h
        · exact Or.inr (List.mem_cons_of_mem _ h)

theorem mem_add_task_to_history {a : HEntry} {hist : List HEntry}
    {id : String} {now : Int}
    (h : a ∈ add_task_to_history hist id now) :
    a = (id, now) ∨ a ∈ hist := by
  unfold add_task_to_history at h
  have h' : a ∈ zadd hist id now := by
    split at h
    · exact List.mem_of_mem_take h
    · exact h
  unfold zadd at h'
  rcases mem_insertEntry h' with h'' | h''
  · exact Or.inl h''
  · exact Or.inr (List.mem_of_mem_filter h'')

theorem mem_runHistory_aux {a : HEntry} :
    ∀ (ins : List HEntry) (h : List HEntry),
      a ∈ ins.foldl (fun h e => add_task_to_history h e.1 e.2) h →
      a ∈ h ∨ a ∈ ins := by
  intro ins
  induction ins with
  | nil => intro h hm; exact Or.inl hm
  | cons x xs ih =>
    intro h hm
    rcases ih (add_task_to_history h x.1 x.2) hm with hm' | hm'
    · rcases mem_add_task_to_history hm' with hm'' | hm''
      · exact Or.inr (by simp [hm''])
      · exact Or.inl hm''
    · exact Or.inr (List.mem_cons_of_mem _ hm')

theorem mem_runHistory {a : HEntry} {ins : List HEntry}
    (h : a ∈ runHistory ins) : a ∈ ins := by
  rcases mem_runHistory_aux ins [] h with h' | h'
  · simp at h'
  · exact h'

theorem hAfter_trans {x y z : HEntry} (h₁ : hAfter x y) (h₂ : hAfter y z) :
    hAfter x z := by
  rcases h₁ with h₁ | ⟨e₁, s₁⟩ <;> rcases h₂ with h₂ | ⟨e₂, s₂⟩
  · exact Or.inl (h₂.trans h₁)
  · exact Or.inl (by rw [← e₂]; exact h₁)
  · exact Or.inl (by rw [e₁]; exact h₂)
  · exact Or.inr ⟨e₁.trans e₂, strLt_trans s₂ s₁⟩

theorem hGe_of_not_hAfter {x y : HEntry} (h : ¬ hAfter x y) : hGe y x := by
  unfold hAfter at h
  push_neg at h
  obtain ⟨h₁, h₂⟩ := h
  rcases lt_trichotomy x.2 y.2 with hs | hs | hs
  · exact Or.inl (Or.inl hs)
  · cases hm : strLt x.1 y.1 with
    | true => exact Or.inl (Or.inr ⟨hs.symm, hm⟩)
    | false =>
      have hyx : strLt y.1 x.1 = false :=
        Bool.not_eq_true _ ▸ h₂ hs
      exact Or.inr (Prod.ext_iff.mpr ⟨(strLt_antisymm hm hyx).symm, hs.symm⟩)
  · exact absurd hs (not_lt.2 h₁)

theorem sorted_insertEntry {l : List HEntry} (x : HEntry)
    (hs : List.Sorted hGe l) : List.Sorted hGe (insertEntry x l) := by
  induction l with
  | nil => simp [insertEntry]
  | cons y ys ih =>
    rw [List.sorted_cons] at hs
    obtain ⟨hy, hys⟩ := hs
    simp only [insertEntry]
    split
    · rename_i hxy
      rw [List.sorted_cons]
      refine ⟨?_, List.sorted_cons.2 ⟨hy, hys⟩⟩
      intro z hz
      rcases List.mem_cons.1 hz with rfl | hz
      · exact Or.inl hxy
      · rcases hy z hz with h | rfl
        · exact Or.inl (hAfter_trans hxy h)
        · exact Or.inl hxy
    · rename_i hxy
      rw [List.sorted_cons]
      refine ⟨?_, ih hys⟩
      intro z hz
      rcases mem_insertEntry hz with rfl | hz
      · exact hGe_of_not_hAfter hxy
      · exact hy z hz

theorem insertEntry_perm (x : HEntry) (l : List HEntry) :
    List.Perm (insertEntry x l) (x :: l) := by
  induction l with
  | nil => rfl
  | cons y ys ih =>
    simp only [insertEntry]
    split
    · rfl
    · exact (ih.cons y).trans (List.Perm.swap x y ys)

theorem foldl_insertEntry_perm :
    ∀ (ins acc : List HEntry),
      List.Perm (ins.foldl (fun h e => insertEntry e h) acc) (acc ++ ins) := by
  intro ins
  induction ins with
  | nil => intro acc; simp
  | cons x xs ih =>
    intro acc
    refine (ih (insertEntry x acc)).trans ?_
    refine ((insertEntry_perm x acc).append_right xs).trans ?_
    exact List.perm_middle.symm

theorem sortEntries_perm (ins : List HEntry) :
    List.Perm (sortEntries ins) ins := by
  simpa using foldl_insertEntry_perm ins []

theorem foldl_insertEntry_sorted :
    ∀ (ins h : List HEntry), List.Sorted hGe h →
      List.Sorted hGe (ins.foldl (fun h e => insertEntry e h) h) := by
  intro ins
  induction ins with
  | nil => intro h hs; exact hs
  | cons x xs ih => intro h hs; exact ih _ (sorted_insertEntry x hs)

theorem sortEntries_sorted (ins : List HEntry) :
    List.Sorted hGe (sortEntries ins) :=
  foldl_insertEntry_sorted ins [] (by simp)

theorem add_task_to_history_eq_take (hist : List HEntry) (id : String)
    (now : Int) :
    add_task_to_history hist id now =
      (zadd hist id now).take MAX_HISTORY_SIZE := by
  unfold add_task_to_history
  split
  · rfl
  · rw [List.take_of_length_le (by omega)]

theorem runHistory_append_singleton (l : List HEntry) (x : HEntry) :
    runHistory (l ++ [x]) = add_task_to_history (runHistory l) x.1 x.2 := by
  unfold runHistory
  rw [List.foldl_append]
  rfl

theorem sortEntries_append_singleton (l : List HEntry) (x : HEntry) :
    sortEntries (l ++ [x]) = insertEntry x (sortEntries l) := by
  unfold sortEntries
  rw [List.foldl_append]
  rfl

theorem runHistory_eq_take_sortEntries :
    ∀ (ins : List HEntry), (ins.map Prod.fst).Nodup →
      runHistory ins = (sortEntries ins).take MAX_HISTORY_SIZE := by
  intro ins
  induction ins using List.reverseRecOn with
  | nil => intro _; rfl
  | append_singleton l x ih =>
    intro hnd
    rw [List.map_append, List.nodup_append] at hnd
    obtain ⟨hl, -, hdisj⟩ := hnd
    have hx : x.1 ∉ l.map Prod.fst := fun hmem => hdisj hmem (by simp)
    obtain ⟨xid, xsc⟩ := x
    rw [runHistory_append_singleton, sortEntries_append_singleton,
      add_task_to_history_eq_take]
    unfold zadd
    have hfilt : (runHistory l).filter (fun e => e.1 != xid) = runHistory l := by
      apply List.filter_eq_self.mpr
      intro a ha
      have hal : a ∈ l := mem_runHistory ha
      have hne : a.1 ≠ xid := by
        intro he
        apply hx
        have hm := List.mem_map_of_mem Prod.fst hal
        rwa [he] at hm
      simpa using hne
    rw [hfilt, ih hl, take_insertEntry]

/-! ## Claim C2 -/

/-- C2 (amended). After any sequence of `add_task_to_history` calls the
history index holds at most `MAX_HISTORY_SIZE = 20` entries, and — for
insertion sequences with pairwise distinct ids — the retained entries are
exactly the first 20 of the full insertion sequence ordered by rank
(highest score first, score ties broken by the lexicographically greater
id first, Redis member order), not by insertion order. -/
theorem history_bound_and_retention (ins : List HEntry) :
    (runHistory ins).length ≤ MAX_HISTORY_SIZE ∧
    ((ins.map Prod.fst).Nodup →
      runHistory ins = (sortEntries ins).take MAX_HISTORY_SIZE ∧
      List.Sorted hGe (sortEntries ins) ∧
      List.Perm (sortEntries ins) ins) :=
  ⟨runHistory_length_le ins,
   fun hnd => ⟨runHistory_eq_take_sortEntries ins hnd,
               sortEntries_sorted ins, sortEntries_perm ins⟩⟩

/-- Twenty-one insertions with identical scores; `"b"` is inserted first
and `"a"` second, so the 20 most recent insertions are all but `"b"`. -/
def tieInsertions : List HEntry :=
  [("b", 0), ("a", 0), ("c", 0), ("d", 0), ("e", 0), ("f", 0), ("g", 0),
   ("h", 0), ("i", 0), ("j", 0), ("k", 0), ("l", 0), ("m", 0), ("n", 0),
   ("o", 0), ("p", 0), ("q", 0), ("r", 0), ("s", 0), ("t", 0), ("u", 0)]

/-- C2 counterexample to the claim as stated: with all 21 scores tied,
the 20 most-recently-inserted ids are `tieInsertions.drop 1` (everything
but `"b"`), yet the code retains `"b"` and evicts `"a"` — the sorted set
breaks score ties by member order, not insertion order. -/
theorem history_tie_break_counterexample :
    (tieInsertions.map Prod.fst).Nodup ∧
    ((tieInsertions.drop 1).map Prod.fst).length = MAX_HISTORY_SIZE ∧
    "a" ∈ (tieInsertions.drop 1).map Prod.fst ∧
    "b" ∉ (tieInsertions.drop 1).map Prod.fst ∧
    "b" ∈ (runHistory tieInsertions).map Prod.fst ∧
    "a" ∉ (runHistory tieInsertions).map Prod.fst := by
  decide

/-- Witness for `history_bound_and_retention` at a concrete insertion
sequence with distinct ids. -/
theorem history_bound_and_retention_witness :
    ((([("x", 1), ("y", 3), ("z", 2)] : List HEntry).map Prod.fst).Nodup) ∧
    (runHistory [("x", 1), ("y", 3), ("z", 2)] =
       (sortEntries [("x", 1), ("y", 3), ("z", 2)]).take MAX_HISTORY_SIZE ∧
     List.Sorted hGe (sortEntries [("x", 1), ("y", 3), ("z", 2)]) ∧
     List.Perm (sortEntries [("x", 1), ("y", 3), ("z", 2)])
       [("x", 1), ("y", 3), ("z", 2)]) :=
  ⟨by decide,
   (history_bound_and_retention [("x", 1), ("y", 3), ("z", 2)]).2 (by decide)⟩

/-! ## Retry/backoff policy (download_tasks.py) -/

/-- `retry_kwargs={'max_retries': 3, ...}` on the task decorator
(download_tasks.py line 16), read back as `self.max_retries`. -/
def MAX_RETRIES : Nat := 3

/-- The fixed base of the backoff, from
`countdown=60 * (2 ** self.request.retries)` (line 112). -/
def RETRY_BASE_SECONDS : Nat := 60

/-- Outcome of the except-block retry logic. -/
inductive RetryDecision where
  | retry (countdown : Nat)
  | giveUp
deriving DecidableEq, Repr

set_option linter.unusedVariables false in
/-- The decision at the end of `download_video_task`'s except block
(lines 109-115): `if self.request.retries < self.max_retries: raise
self.retry(countdown=60 * (2 ** self.request.retries))` else `raise e`.
The caught error is never inspected. -/
def retryDecision (attempt : Nat) (err : String) : RetryDecision :=
  if attempt < MAX_RETRIES
  then .retry (RETRY_BASE_SECONDS * 2 ^ attempt)
  else .giveUp

/-! ## Claim C3 -/

/-- C3: for every error, any attempt count at or above the cap of 3 gives
up (the error is re-raised); below the cap the decision is a retry with
delay `60 * 2 ^ attempt_count`; the error's content never matters. -/
theorem retry_cap_and_backoff (attempt : Nat) (err : String) :
    (MAX_RETRIES ≤ attempt → retryDecision attempt err = .giveUp) ∧
    (attempt < MAX_RETRIES →
      retryDecision attempt err =
        .retry (RETRY_BASE_SECONDS * 2 ^ attempt)) ∧
    (∀ err', retryDecision attempt err = retryDecision attempt err') := by
  refine ⟨fun h => ?_, fun h => ?_, fun _ => rfl⟩
  · simp [retryDecision, Nat.not_lt.2 h]
  · simp [retryDecision, h]

/-- Witness for `retry_cap_and_backoff` at attempts 3 and 2. -/
theorem retry_cap_and_backoff_witness :
    retryDecision 3 "Video unavailable" = .giveUp ∧
    retryDecision 2 "Video unavailable" = .retry 240 :=
  ⟨(retry_cap_and_backoff 3 "Video unavailable").1 (by decide),
   ((retry_cap_and_backoff 2 "Video unavailable").2.1 (by decide)).trans
     (by decide)⟩

/-! ## Claim C4 -/

/-- C4: `update_task_status` on an id with no stored record returns
`False`, raises nothing, and leaves the whole Redis state untouched — no
record is created and nothing else (including the history index)
changes. -/
theorem update_missing_id_noop (st : RedisState) (task_id : String)
    (status : TaskStatus) (f : UpdateFields) (now : Int)
    (h : st.tasks ("task:" ++ task_id) = none) :
    update_task_status st task_id status f now = (false, st) := by
  simp [update_task_status, h]

/-- Witness for `update_missing_id_noop` on the empty store. -/
theorem update_missing_id_noop_witness :
    (RedisState.mk (fun _ => none) []).tasks ("task:" ++ "t1") = none ∧
    update_task_status (RedisState.mk (fun _ => none) []) "t1"
        .COMPLETED noFields 0 =
      (false, RedisState.mk (fun _ => none) []) :=
  ⟨rfl, update_missing_id_noop _ "t1" .COMPLETED noFields 0 rfl⟩

/-! ## Claim C5 -/

/-- A concrete pre-existing hash used in the C5 counterexample. -/
def oldHash : TaskHash :=
  { url := "https://www.youtube.com/watch?v=OLD1234"
    status := "COMPLETED"
    progress := "done"
    title := "old title"
    file_path := "/downloads/old.mp4"
    download_url := "/downloads/old.mp4"
    error_message := ""
    options := encodeOptions ⟨"best", "video", some "mp3"⟩
    created_at := 100
    updated_at := 200 }

/-- A store already holding a record for id `t1`. -/
def takenStore : RedisState :=
  { tasks := fun k => if k = "task:t1" then some (oldHash, 3600) else none
    history := [] }

/-- A new task submitted under the already-taken id `t1`. -/
def newTask : DownloadTask :=
  { task_id := "t1"
    url := "https://www.youtube.com/watch?v=NEW5678"
    status := .PENDING
    progress := "排队中..."
    title := ""
    file_path := ""
    download_url := ""
    error_message := ""
    options := ⟨"best", "video", some "mp3"⟩
    created_at := 300
    updated_at := 300 }

/-- C5 counterexample to the claim as stated: storing a task whose id is
already taken does not fail — `store_task` performs no existence check
(there is no `AlreadyExists` anywhere in the code), reports success, and
silently replaces the old record. -/
theorem store_task_overwrites_counterexample :
    takenStore.tasks "task:t1" = some (oldHash, 3600) ∧
    (store_task takenStore newTask).1 = true ∧
    (store_task takenStore newTask).2.tasks "task:t1" =
      some (taskToHash newTask, TASK_TTL_SECONDS) ∧
    taskToHash newTask ≠ oldHash := by
  refine ⟨rfl, rfl, rfl, ?_⟩
  decide

/-- C5 (amended): `store_task` is an unconditional upsert — for every
store and every task it returns `True` and writes the task's hash under
`task:` ++ id with the TTL armed to the full retention window, replacing
whatever was there; other keys are untouched. -/
theorem store_task_upsert (st : RedisState) (t : DownloadTask) :
    (store_task st t).1 = true ∧
    (store_task st t).2.tasks ("task:" ++ t.task_id) =
      some (taskToHash t, TASK_TTL_SECONDS) ∧
    TASK_TTL_SECONDS = 7 * 24 * 60 * 60 ∧
    (∀ k, k ≠ "task:" ++ t.task_id →
      (store_task st t).2.tasks k = st.tasks k) ∧
    (store_task st t).2.history = st.history := by
  refine ⟨rfl, by simp [store_task], rfl, fun k hk => ?_, rfl⟩
  simp [store_task, hk]

/-- Witness for `store_task_upsert` on the taken store (the hypothesis
being the inner universally quantified side condition). -/
theorem store_task_upsert_witness :
    (store_task takenStore newTask).1 = true ∧
    (store_task takenStore newTask).2.tasks "task:other" =
      takenStore.tasks "task:other" :=
  ⟨(store_task_upsert takenStore newTask).1,
   (store_task_upsert takenStore newTask).2.2.2.1 "task:other" (by decide)⟩

/-! ## Claim C8 -/

/-- C8: a successful `update_task_status` on an existing id reports
success, stores the updated hash with `updated_at` set to the call time
and the TTL re-armed to the full 7-day retention window, overwrites only
the fields actually passed (every optional argument left at `None`
keeps its stored value), and never touches `url`, `options` or
`created_at`. -/
theorem update_heartbeat (st : RedisState) (task_id : String)
    (status : TaskStatus) (f : UpdateFields) (now : Int)
    (h₀ : TaskHash) (ttl₀ : Nat)
    (hex : st.tasks ("task:" ++ task_id) = some (h₀, ttl₀)) :
    (update_task_status st task_id status f now).1 = true ∧
    (update_task_status st task_id status f now).2.tasks
        ("task:" ++ task_id) =
      some (applyUpdate h₀ status f now, TASK_TTL_SECONDS) ∧
    TASK_TTL_SECONDS = 7 * 24 * 60 * 60 ∧
    (applyUpdate h₀ status f now).updated_at = now ∧
    (applyUpdate h₀ status f now).status = status.value ∧
    (f.progress = none →
      (applyUpdate h₀ status f now).progress = h₀.progress) ∧
    (f.error_message = none →
      (applyUpdate h₀ status f now).error_message = h₀.error_message) ∧
    (f.title = none → (applyUpdate h₀ status f now).title = h₀.title) ∧
    (f.file_path = none →
      (applyUpdate h₀ status f now).file_path = h₀.file_path) ∧
    (f.download_url = none →
      (applyUpdate h₀ status f now).download_url = h₀.download_url) ∧
    (applyUpdate h₀ status f now).url = h₀.url ∧
    (applyUpdate h₀ status f now).options = h₀.options ∧
    (applyUpdate h₀ status f now).created_at = h₀.created_at := by
  refine ⟨by simp [update_task_status, hex], by simp [update_task_status, hex],
    rfl, rfl, rfl, ?_, ?_, ?_, ?_, ?_, rfl, rfl, rfl⟩ <;>
    (intro hnone; simp [applyUpdate, hnone])

/-- Witness for `update_heartbeat` on the taken store. -/
theorem update_heartbeat_witness :
    takenStore.tasks ("task:" ++ "t1") = some (oldHash, 3600) ∧
    (update_task_status takenStore "t1" .DOWNLOADING noFields 500).2.tasks
        ("task:" ++ "t1") =
      some (applyUpdate oldHash .DOWNLOADING noFields 500,
        TASK_TTL_SECONDS) ∧
    (applyUpdate oldHash .DOWNLOADING noFields 500).progress =
      oldHash.progress :=
  ⟨rfl,
   (update_heartbeat takenStore "t1" .DOWNLOADING noFields 500 oldHash
       3600 rfl).2.1,
   (update_heartbeat takenStore "t1" .DOWNLOADING noFields 500 oldHash
       3600 rfl).2.2.2.2.2.1 rfl⟩

/-! ## Claim C9 -/

theorem optGetD_absorb {α : Type} (o : Option α) (x : α) :
    o.getD (o.getD x) = o.getD x := by
  cases o <;> rfl

/-- Characterisation of a successful `update_task_status` as a state
transform. -/
theorem update_task_status_eq (st : RedisState) (task_id : String)
    (status : TaskStatus) (f : UpdateFields) (now : Int) (h₀ : TaskHash)
    (ttl₀ : Nat)
    (hex : st.tasks ("task:" ++ task_id) = some (h₀, ttl₀)) :
    update_task_status st task_id status f now =
      (true,
       ⟨fun k =>
          if k = "task:" ++ task_id
          then some (applyUpdate h₀ status f now, TASK_TTL_SECONDS)
          else st.tasks k,
        st.history⟩) := by
  simp [update_task_status, hex]

theorem applyUpdate_applyUpdate (h : TaskHash) (status : TaskStatus)
    (f : UpdateFields) (t₁ t₂ : Int) :
    applyUpdate (applyUpdate h status f t₁) status f t₂ =
      applyUpdate h status f t₂ := by
  simp [applyUpdate, optGetD_absorb]

/-- C9: on an existing id, issuing the same update twice in a row leaves
exactly the state a single call (at the second call's time) leaves; and
the twice-updated record agrees with the once-updated record on every
field except (possibly) `updated_at`. -/
theorem update_idempotent (st : RedisState) (task_id : String)
    (status : TaskStatus) (f : UpdateFields) (t₁ t₂ : Int)
    (h₀ : TaskHash) (ttl₀ : Nat)
    (hex : st.tasks ("task:" ++ task_id) = some (h₀, ttl₀)) :
    (update_task_status (update_task_status st task_id status f t₁).2
        task_id status f t₂).2 =
      (update_task_status st task_id status f t₂).2 ∧
    ({ applyUpdate (applyUpdate h₀ status f t₁) status f t₂ with
        updated_at := 0 } : TaskHash) =
      { applyUpdate h₀ status f t₁ with updated_at := 0 } := by
  constructor
  · have e₁ := update_task_status_eq st task_id status f t₁ h₀ ttl₀ hex
    have hex₁ :
        (update_task_status st task_id status f t₁).2.tasks
          ("task:" ++ task_id) =
        some (applyUpdate h₀ status f t₁, TASK_TTL_SECONDS) := by
      rw [e₁]; simp
    rw [update_task_status_eq _ task_id status f t₂ _ _ hex₁,
      update_task_status_eq st task_id status f t₂ h₀ ttl₀ hex, e₁]
    dsimp only
    simp only [RedisState.mk.injEq]
    refine ⟨?_, trivial⟩
    funext k
    by_cases hk : k = "task:" ++ task_id
    · simp [hk, applyUpdate_applyUpdate]
    · simp [hk]
  · rw [applyUpdate_applyUpdate]
    simp [applyUpdate]

/-- Witness for `update_idempotent` on the taken store. -/
theorem update_idempotent_witness :
    takenStore.tasks ("task:" ++ "t1") = some (oldHash, 3600) ∧
    (update_task_status
        (update_task_status takenStore "t1" .DOWNLOADING noFields 500).2
        "t1" .DOWNLOADING noFields 600).2 =
      (update_task_status takenStore "t1" .DOWNLOADING noFields 600).2 :=
  ⟨rfl,
   (update_idempotent takenStore "t1" .DOWNLOADING noFields 500 600
       oldHash 3600 rfl).1⟩

/-! ## Claim C10 -/

theorem statusOfString_value (s : TaskStatus) :
    TaskStatus.ofString s.value = some s := by
  cases s <;> rfl

theorem decodeOptions_encodeOptions (o : DownloadOptions)
    (hv : o.Valid) : decodeOptions (encodeOptions o) = some o := by
  obtain ⟨q, f, a⟩ := o
  obtain ⟨hf, ha⟩ := hv
  rcases hf with hf | hf
  · subst hf
    cases a <;> rfl
  · subst hf
    rcases ha rfl with h | h <;> subst h <;> rfl

/-- C10: storing any valid `DownloadTask` and retrieving it by its id
gives back the record unchanged in every field, the embedded options
surviving their serialisation/parse to and from JSON. -/
theorem store_retrieve_roundtrip (st : RedisState) (t : DownloadTask)
    (hv : t.options.Valid) :
    retrieve_task (store_task st t).2 t.task_id = .ok (some t) := by
  unfold retrieve_task retrieveT
  have hk : (store_task st t).2.tasks ("task:" ++ t.task_id) =
      some (taskToHash t, TASK_TTL_SECONDS) := by
    simp [store_task]
  rw [hk]
  simp only [taskToHash, hashToTask,
    decodeOptions_encodeOptions t.options hv, statusOfString_value]

/-- Witness for `store_retrieve_roundtrip` at a concrete task. -/
theorem store_retrieve_roundtrip_witness :
    newTask.options.Valid ∧
    retrieve_task (store_task takenStore newTask).2 newTask.task_id =
      .ok (some newTask) :=
  ⟨by decide, store_retrieve_roundtrip takenStore newTask (by decide)⟩

/-! ## History consumers (claim C6) -/

/-- `ZREVRANGE history:downloads 0 (limit - 1)`: the first `limit`
entries in most-recent-first order. Python's `limit - 1` is `-1` when
`limit = 0`, and Redis treats end index `-1` as the last element, so a
zero limit returns the whole range. -/
def zrevrangeIds (hist : List HEntry) (limit : Nat) : List String :=
  if limit = 0 then hist.map Prod.fst else (hist.take limit).map Prod.fst

/-- `get_download_history` (task_storage.py, lines 398-435): the listed
ids, most recent first. -/
def get_download_history (st : RedisState) (limit : Nat) : List String :=
  zrevrangeIds st.history limit

/-- `ZREM history:downloads id` (`remove_task_from_history`, lines
484-520). -/
def zrem (hist : List HEntry) (id : String) : List HEntry :=
  hist.filter fun e => e.1 != id

/-- The resolution loop of `get_download_history_with_tasks` (lines
459-472): a found task is collected; a missing task is removed from the
history as a side effect and the loop continues; a `TaskStorageError`
(parse failure) is caught and the loop continues without touching the
index. -/
def resolveLoop (tasks : String → Option (TaskHash × Nat)) :
    List String → List HEntry → List DownloadTask × List HEntry
  | [], hist => ([], hist)
  | id :: ids, hist =>
    match retrieveT tasks id with
    | .ok (some t) =>
      ((resolveLoop tasks ids hist).1.cons t, (resolveLoop tasks ids hist).2)
    | .ok none => resolveLoop tasks ids (zrem hist id)
    | .error _ => resolveLoop tasks ids hist

/-- `get_download_history_with_tasks` (lines 438-481): read the listed
ids first, then resolve them against the task store, pruning dangling
ids from the index as they are discovered. -/
def get_download_history_with_tasks (st : RedisState) (limit : Nat) :
    List DownloadTask × List HEntry :=
  resolveLoop st.tasks (get_download_history st limit) st.history

/-- The loop of `get_history` (lines 599-605): found tasks are
collected, missing ids are silently skipped, and a `TaskStorageError`
from `get_task` escapes the loop (the caller's except block then returns
`[]`). -/
def getHistoryLoop (tasks : String → Option (TaskHash × Nat)) :
    List String → Option (List DownloadTask)
  | [] => some []
  | id :: ids =>
    match retrieveT tasks id with
    | .ok (some t) => (getHistoryLoop tasks ids).map (t :: ·)
    | .ok none => getHistoryLoop tasks ids
    | .error _ => none

/-- `get_history` (lines 574-615), the path the
`GET /downloads/history` endpoint reaches through
`TaskStorage.get_history`: the same `ZREVRANGE` read, but the loop
issues only read commands — the history component is returned unchanged
because the source never writes to the index here. An error anywhere
makes the whole call return `[]`. -/
def get_history (st : RedisState) (limit : Nat) :
    List DownloadTask × List HEntry :=
  (match getHistoryLoop st.tasks (zrevrangeIds st.history limit) with
   | some ts => ts
   | none => [],
   st.history)

theorem resolveLoop_hist_subset
    (tasks : String → Option (TaskHash × Nat)) :
    ∀ (ids : List String) (hist : List HEntry),
      ∀ e ∈ (resolveLoop tasks ids hist).2, e ∈ hist := by
  intro ids
  induction ids with
  | nil => intro hist e he; exact he
  | cons id rest ih =>
    intro hist e he
    unfold resolveLoop at he
    rcases hr : retrieveT tasks id with herr | ho
    · rw [hr] at he
      exact ih hist e he
    · rcases ho with _ | t
      · rw [hr] at he
        exact List.mem_of_mem_filter (ih (zrem hist id) e he)
      · rw [hr] at he
        exact ih hist e he

theorem resolveLoop_removes
    (tasks : String → Option (TaskHash × Nat)) :
    ∀ (ids : List String) (hist : List HEntry) (id : String),
      id ∈ ids → retrieveT tasks id = .ok none →
      ∀ e ∈ (resolveLoop tasks ids hist).2, e.1 ≠ id := by
  intro ids
  induction ids with
  | nil => intro hist id hid; simp at hid
  | cons x rest ih =>
    intro hist id hid hmiss e he
    rcases List.mem_cons.1 hid with rfl | hid
    · unfold resolveLoop at he
      rw [hmiss] at he
      have : e ∈ zrem hist id := resolveLoop_hist_subset tasks rest _ e he
      have := List.of_mem_filter this
      simpa using this
    · unfold resolveLoop at he
      rcases hr : retrieveT tasks x with herr | ho
      · rw [hr] at he
        exact ih hist id hid hmiss e he
      · rcases ho with _ | t
        · rw [hr] at he
          exact ih (zrem hist x) id hid hmiss e he
        · rw [hr] at he
          exact ih hist id hid hmiss e he

theorem resolveLoop_tasks
    (tasks : String → Option (TaskHash × Nat)) :
    ∀ (ids : List String) (hist : List HEntry),
      (resolveLoop tasks ids hist).1 =
        ids.filterMap (fun id =>
          match retrieveT tasks id with
          | .ok (some t) => some t
          | _ => none) := by
  intro ids
  induction ids with
  | nil => intro hist; rfl
  | cons x rest ih =>
    intro hist
    unfold resolveLoop
    rcases hr : retrieveT tasks x with herr | ho
    · simp [List.filterMap_cons, hr, ih]
    · rcases ho with _ | t
      · simp [List.filterMap_cons, hr, ih]
      · simp [List.filterMap_cons, hr, ih]

/-! ## Claim C6 -/

/-- C6 (amended): when `get_download_history_with_tasks` resolves the
listed ids, every listed id whose record is missing is removed from the
history index as a side effect and resolution continues with the
remaining ids (the result is exactly the found records in listed order);
the `get_history` path used by the `GET /downloads/history` endpoint
skips missing records but performs no index write — the history index is
left exactly as it was. -/
theorem history_resolution (st : RedisState) (limit : Nat) :
    (∀ id, id ∈ get_download_history st limit →
      retrieveT st.tasks id = .ok none →
      ∀ e ∈ (get_download_history_with_tasks st limit).2, e.1 ≠ id) ∧
    (get_download_history_with_tasks st limit).1 =
      (get_download_history st limit).filterMap (fun id =>
        match retrieveT st.tasks id with
        | .ok (some t) => some t
        | _ => none) ∧
    (get_history st limit).2 = st.history := by
  refine ⟨fun id hid hmiss => ?_, ?_, rfl⟩
  · exact resolveLoop_removes st.tasks _ st.history id hid hmiss
  · exact resolveLoop_tasks st.tasks _ st.history

/-- A store whose history lists an id with no backing record. -/
def ghostState : RedisState :=
  { tasks := fun _ => none, history := [("ghost", 5)] }

/-- C6 counterexample to the claim as stated: on the `get_history` path
the API uses, a listed id whose record is missing from the store is
*not* removed from the history index — the index still contains it after
resolution, while the claim requires its removal on every consumer
resolution including this one. -/
theorem get_history_no_removal_counterexample :
    retrieveT ghostState.tasks "ghost" = .ok none ∧
    "ghost" ∈ get_download_history ghostState 20 ∧
    (get_history ghostState 20).1 = [] ∧
    (get_history ghostState 20).2 = [("ghost", 5)] ∧
    ("ghost", 5) ∈ (get_history ghostState 20).2 := by
  refine ⟨rfl, ?_, rfl, rfl, ?_⟩ <;> decide

/-- A store with one live record and one dangling history id. -/
def mixedState : RedisState :=
  { tasks := fun k =>
      if k = "task:live" then some (oldHash, 3600) else none
    history := [("live", 7), ("ghost", 5)] }

/-- Witness for `history_resolution` on `mixedState`, with the dangling
id `"ghost"` removed by the with-tasks path and kept by the API path. -/
theorem history_resolution_witness :
    ("ghost" ∈ get_download_history mixedState 20) ∧
    (retrieveT mixedState.tasks "ghost" = .ok none) ∧
    (∀ e ∈ (get_download_history_with_tasks mixedState 20).2,
      e.1 ≠ "ghost") ∧
    (get_history mixedState 20).2 = mixedState.history :=
  ⟨by decide, rfl,
   (history_resolution mixedState 20).1 "ghost" (by decide) rfl,
   (history_resolution mixedState 20).2.2⟩

/-! ## The worker's execution trace (download_tasks.py) -/

/-- One store/history operation issued by `download_video_task` during a
single invocation. -/
inductive RunnerOp where
  | updateStatus (status : TaskStatus) (f : UpdateFields)
  | addHistory
deriving DecidableEq, Repr

/-- The initial write of every (re-)invocation (lines 40-44):
`update_task_status(task_id, TaskStatus.DOWNLOADING, progress="开始下载...")`. -/
def startOp : RunnerOp :=
  .updateStatus .DOWNLOADING { noFields with progress := some "开始下载..." }

/-- A progress-callback write (lines 47-59), which goes through
`update_task_progress`: status `DOWNLOADING` with only `progress` set. -/
def progressOp (msg : String) : RunnerOp :=
  .updateStatus .DOWNLOADING { noFields with progress := some msg }

/-- The terminal write of a successful run (lines 74-81): `COMPLETED`
with `progress="下载完成"`, `file_path`, `download_url` and `title`. -/
def completeOp (title file_path download_url : String) : RunnerOp :=
  .updateStatus .COMPLETED
    { progress := some "下载完成"
      error_message := none
      title := some title
      file_path := some file_path
      download_url := some download_url }

/-- The terminal write of a failing run (lines 101-105): `FAILED` with
only `error_message` set. -/
def failOp (err : String) : RunnerOp :=
  .updateStatus .FAILED { noFields with error_message := some err }

/-- The store/history operations of one successful invocation of
`download_video_task`, in program order: the initial `DOWNLOADING`
write, the progress writes issued while the downloader runs, the
terminal `COMPLETED` write, then the history insertion
(`add_to_history`, line 84). -/
def successTrace (ps : List String)
    (title file_path download_url : String) : List RunnerOp :=
  startOp :: ps.map progressOp ++
    [completeOp title file_path download_url, .addHistory]

/-- The store operations of one failing invocation (before the retry
decision): initial write, progress writes, then the `FAILED` write. -/
def failureTrace (ps : List String) (err : String) : List RunnerOp :=
  startOp :: ps.map progressOp ++ [failOp err]

/-- The status an operation writes, if any. -/
def setsStatus : RunnerOp → Option TaskStatus
  | .updateStatus s _ => some s
  | .addHistory => none

theorem no_backward_write_aux :
    ∀ (pre : List RunnerOp) (term : RunnerOp) (suf : List RunnerOp),
      (∀ op ∈ pre, ∀ s, setsStatus op = some s → s.isTerminal = false) →
      (∀ op ∈ suf, setsStatus op = none) →
      ∀ l₁ op l₂, pre ++ term :: suf = l₁ ++ op :: l₂ →
        (∃ s, setsStatus op = some s ∧ s.isTerminal = true) →
        ∀ op' ∈ l₂, ∀ s', setsStatus op' = some s' →
          s'.isTerminal = true := by
  intro pre
  induction pre with
  | nil =>
    intro term suf hpre hsuf l₁ op l₂ heq hterm op' hop' s' hs'
    cases l₁ with
    | nil =>
      simp only [List.nil_append, List.cons_append] at heq
      injection heq with h1 h2
      subst h2
      rw [hsuf op' hop'] at hs'
      cases hs'
    | cons a l₁' =>
      simp only [List.nil_append, List.cons_append] at heq
      injection heq with h1 h2
      have hopsuf : op ∈ suf := by
        rw [h2]
        exact List.mem_append_right _ (List.mem_cons_self _ _)
      obtain ⟨s, hs, hst⟩ := hterm
      rw [hsuf op hopsuf] at hs
      cases hs
  | cons a pre' ih =>
    intro term suf hpre hsuf l₁ op l₂ heq hterm op' hop' s' hs'
    cases l₁ with
    | nil =>
      simp only [List.nil_append, List.cons_append] at heq
      injection heq with h1 h2
      obtain ⟨s, hs, hst⟩ := hterm
      rw [← h1] at hs
      rw [hpre a (List.mem_cons_self _ _) s hs] at hst
      cases hst
    | cons b l₁' =>
      simp only [List.cons_append] at heq
      injection heq with h1 h2
      exact ih term suf (fun o ho => hpre o (List.mem_cons_of_mem _ ho))
        hsuf l₁' op l₂ h2 hterm op' hop' s' hs'

theorem prefix_ops_nonterminal (ps : List String) :
    ∀ op ∈ startOp :: ps.map progressOp,
      ∀ s, setsStatus op = some s → s.isTerminal = false := by
  intro op hop s hs
  rcases List.mem_cons.1 hop with rfl | hop
  · cases hs; rfl
  · obtain ⟨m, _, rfl⟩ := List.mem_map.1 hop
    cases hs; rfl

/-! ## Claim C1 -/

/-- C1: within one invocation of `download_video_task` — one execution
of the task lineage — every store write after a terminal
(`COMPLETED`/`FAILED`) status write again writes a terminal status (in
fact none exists: the terminal write is the last status write of the
invocation), on the success path and on the failure path alike; and
every (re-)invocation, including the fresh retry re-invocation, begins
by explicitly re-setting the running state: its first operation is the
`DOWNLOADING` start write. -/
theorem lineage_monotonic_terminality (ps : List String)
    (title file_path download_url err : String) :
    (∀ l₁ op l₂,
      successTrace ps title file_path download_url = l₁ ++ op :: l₂ →
      (∃ s, setsStatus op = some s ∧ s.isTerminal = true) →
      ∀ op' ∈ l₂, ∀ s', setsStatus op' = some s' →
        s'.isTerminal = true) ∧
    (∀ l₁ op l₂, failureTrace ps err = l₁ ++ op :: l₂ →
      (∃ s, setsStatus op = some s ∧ s.isTerminal = true) →
      ∀ op' ∈ l₂, ∀ s', setsStatus op' = some s' →
        s'.isTerminal = true) ∧
    (successTrace ps title file_path download_url).head? = some startOp ∧
    (failureTrace ps err).head? = some startOp ∧
    setsStatus startOp = some .DOWNLOADING := by
  refine ⟨?_, ?_, rfl, rfl, rfl⟩
  · have h := no_backward_write_aux (startOp :: ps.map progressOp)
      (completeOp title file_path download_url) [.addHistory]
      (prefix_ops_nonterminal ps) (by intro op hop; simp at hop; simp [hop, setsStatus])
    intro l₁ op l₂ heq
    exact h l₁ op l₂ heq
  · have h := no_backward_write_aux (startOp :: ps.map progressOp)
      (failOp err) [] (prefix_ops_nonterminal ps) (by intro op hop; simp at hop)
    intro l₁ op l₂ heq
    exact h l₁ op l₂ heq

/-- Witness for `lineage_monotonic_terminality`: the concrete
decomposition of a one-progress-write success trace at its terminal
write leaves only the history insertion, which writes no status. -/
theorem lineage_monotonic_terminality_witness :
    (successTrace ["10%"] "T" "/d/x.mp4" "/downloads/x.mp4" =
      [startOp, progressOp "10%"] ++
        completeOp "T" "/d/x.mp4" "/downloads/x.mp4" ::
          [RunnerOp.addHistory]) ∧
    (∀ op' ∈ [RunnerOp.addHistory], ∀ s', setsStatus op' = some s' →
      s'.isTerminal = true) :=
  ⟨rfl,
   (lineage_monotonic_terminality ["10%"] "T" "/d/x.mp4"
       "/downloads/x.mp4" "e").1
     [startOp, progressOp "10%"] _ [RunnerOp.addHistory] rfl
     ⟨.COMPLETED, rfl, rfl⟩⟩

/-! ## Executing a runner trace against the store (claim C7) -/

/-- Apply one runner operation to the Redis state. All writes of one
invocation target the same task id; `now` stands for the wall clock of
the writes (its value is irrelevant to the claims proved here). -/
def applyOp (task_id : String) (now : Int) (st : RedisState) :
    RunnerOp → RedisState
  | .updateStatus s f => (update_task_status st task_id s f now).2
  | .addHistory =>
    { st with history := add_task_to_history st.history task_id now }

/-- The state after a prefix of the runner's operations. -/
def runOps (task_id : String) (now : Int) (st : RedisState)
    (ops : List RunnerOp) : RedisState :=
  ops.foldl (applyOp task_id now) st

theorem update_task_status_history (st : RedisState) (task_id : String)
    (s : TaskStatus) (f : UpdateFields) (now : Int) :
    (update_task_status st task_id s f now).2.history = st.history := by
  rcases h : st.tasks ("task:" ++ task_id) with _ | ⟨h₀, ttl₀⟩ <;>
    simp [update_task_status, h]

theorem runOps_updates_history (task_id : String) (now : Int) :
    ∀ (ops : List RunnerOp),
      (∀ op ∈ ops, ∃ s f, op = RunnerOp.updateStatus s f) →
      ∀ st : RedisState,
        (runOps task_id now st ops).history = st.history := by
  intro ops
  induction ops with
  | nil => intro _ st; rfl
  | cons op rest ih =>
    intro hall st
    obtain ⟨s, f, rfl⟩ := hall _ (List.mem_cons_self _ _)
    unfold runOps
    simp only [List.foldl_cons]
    have hr := ih (fun o ho => hall o (List.mem_cons_of_mem _ ho))
      ((update_task_status st task_id s f now).2)
    unfold runOps at hr
    rw [show applyOp task_id now st (.updateStatus s f) =
        (update_task_status st task_id s f now).2 from rfl, hr,
      update_task_status_history]

theorem runOps_updates_tasks_exists (task_id : String) (now : Int) :
    ∀ (ops : List RunnerOp),
      (∀ op ∈ ops, ∃ s f, op = RunnerOp.updateStatus s f) →
      ∀ (st : RedisState) (h₀ : TaskHash) (ttl₀ : Nat),
        st.tasks ("task:" ++ task_id) = some (h₀, ttl₀) →
        ∃ h₁ ttl₁,
          (runOps task_id now st ops).tasks ("task:" ++ task_id) =
            some (h₁, ttl₁) := by
  intro ops
  induction ops with
  | nil => intro _ st h₀ ttl₀ hex; exact ⟨h₀, ttl₀, hex⟩
  | cons op rest ih =>
    intro hall st h₀ ttl₀ hex
    obtain ⟨s, f, rfl⟩ := hall _ (List.mem_cons_self _ _)
    unfold runOps
    simp only [List.foldl_cons]
    have hstep :
        (applyOp task_id now st (.updateStatus s f)).tasks
          ("task:" ++ task_id) =
        some (applyUpdate h₀ s f now, TASK_TTL_SECONDS) := by
      show (update_task_status st task_id s f now).2.tasks _ = _
      rw [update_task_status_eq st task_id s f now h₀ ttl₀ hex]
      simp
    exact ih (fun o ho => hall o (List.mem_cons_of_mem _ ho)) _ _ _ hstep

theorem runOps_append_singleton (task_id : String) (now : Int)
    (st : RedisState) (ops : List RunnerOp) (op : RunnerOp) :
    runOps task_id now st (ops ++ [op]) =
      applyOp task_id now (runOps task_id now st ops) op := by
  unfold runOps
  rw [List.foldl_append]
  rfl

theorem runOps_complete_status (task_id : String) (now : Int)
    (B : List RunnerOp)
    (hB : ∀ op ∈ B, ∃ s f, op = RunnerOp.updateStatus s f)
    (t p d : String) (st : RedisState) (h₀ : TaskHash) (ttl₀ : Nat)
    (hex : st.tasks ("task:" ++ task_id) = some (h₀, ttl₀)) :
    ∃ h₁,
      (runOps task_id now st (B ++ [completeOp t p d])).tasks
        ("task:" ++ task_id) = some (h₁, TASK_TTL_SECONDS) ∧
      h₁.status = "COMPLETED" := by
  obtain ⟨h₁, ttl₁, hh⟩ :=
    runOps_updates_tasks_exists task_id now B hB st h₀ ttl₀ hex
  rw [runOps_append_singleton]
  have hstep : applyOp task_id now (runOps task_id now st B)
      (completeOp t p d) =
      (update_task_status (runOps task_id now st B) task_id .COMPLETED
        { progress := some "下载完成", error_message := none
          title := some t, file_path := some p, download_url := some d }
        now).2 := rfl
  rw [hstep, update_task_status_eq _ task_id .COMPLETED _ now h₁ ttl₁ hh]
  refine ⟨applyUpdate h₁ .COMPLETED
    { progress := some "下载完成", error_message := none
      title := some t, file_path := some p, download_url := some d }
    now, ?_, rfl⟩
  simp

theorem append_singleton_decomp :
    ∀ (A : List RunnerOp) (x : RunnerOp), (∀ op ∈ A, op ≠ x) →
      ∀ l₁ l₂, A ++ [x] = l₁ ++ x :: l₂ → l₁ = A ∧ l₂ = [] := by
  intro A
  induction A with
  | nil =>
    intro x _ l₁ l₂ heq
    cases l₁ with
    | nil =>
      simp only [List.nil_append] at heq
      injection heq with h1 h2
      exact ⟨rfl, h2.symm⟩
    | cons b l₁' =>
      simp only [List.nil_append, List.cons_append] at heq
      injection heq with h1 h2
      exact absurd h2.symm (by simp)
  | cons a A' ih =>
    intro x hne l₁ l₂ heq
    cases l₁ with
    | nil =>
      simp only [List.cons_append, List.nil_append] at heq
      injection heq with h1 h2
      exact absurd h1 (hne a (List.mem_cons_self _ _))
    | cons b l₁' =>
      simp only [List.cons_append] at heq
      injection heq with h1 h2
      obtain ⟨hA, hnil⟩ :=
        ih x (fun o ho => hne o (List.mem_cons_of_mem _ ho)) l₁' l₂ h2
      subst h1
      rw [hA]
      exact ⟨rfl, hnil⟩

theorem successTrace_eq (ps : List String) (t p d : String) :
    successTrace ps t p d =
      (startOp :: ps.map progressOp ++ [completeOp t p d]) ++
        [RunnerOp.addHistory] := by
  simp [successTrace]

theorem successA_ne_addHistory (ps : List String) (t p d : String) :
    ∀ op ∈ startOp :: ps.map progressOp ++ [completeOp t p d],
      op ≠ RunnerOp.addHistory := by
  intro op hop
  rcases List.mem_cons.1 hop with rfl | hop
  · simp [startOp]
  · rcases List.mem_append.1 hop with hop | hop
    · obtain ⟨m, _, rfl⟩ := List.mem_map.1 hop
      simp [progressOp]
    · rcases List.mem_cons.1 hop with rfl | h
      · simp [completeOp]
      · simp at h

theorem successA_updates (ps : List String) (t p d : String) :
    ∀ op ∈ startOp :: ps.map progressOp ++ [completeOp t p d],
      ∃ s f, op = RunnerOp.updateStatus s f := by
  intro op hop
  rcases List.mem_cons.1 hop with rfl | hop
  · exact ⟨_, _, rfl⟩
  · rcases List.mem_append.1 hop with hop | hop
    · obtain ⟨m, _, rfl⟩ := List.mem_map.1 hop
      exact ⟨_, _, rfl⟩
    · rcases List.mem_cons.1 hop with rfl | h
      · exact ⟨_, _, rfl⟩
      · simp at h

/-! ## Claim C7 -/

/-- C7: in a successful execution of `download_video_task`, the history
insertion comes strictly after the terminal `COMPLETED` write (every
decomposition of the trace at the history insertion has the terminal
write among the earlier operations); and — executing any prefix of the
trace against a store in which the record exists and the history does
not yet list the id — whenever the history lists the id, the record's
stored status is already `"COMPLETED"`. -/
theorem terminal_write_before_history (ps : List String)
    (title file_path download_url task_id : String) (now : Int)
    (st : RedisState) (h₀ : TaskHash) (ttl₀ : Nat)
    (hex : st.tasks ("task:" ++ task_id) = some (h₀, ttl₀))
    (hfresh : ∀ e ∈ st.history, e.1 ≠ task_id) :
    (∀ l₁ l₂,
      successTrace ps title file_path download_url =
        l₁ ++ RunnerOp.addHistory :: l₂ →
      completeOp title file_path download_url ∈ l₁) ∧
    (∀ k, ∀ e ∈ (runOps task_id now st
        ((successTrace ps title file_path download_url).take k)).history,
      e.1 = task_id →
      ∃ h₁ ttl₁,
        (runOps task_id now st
          ((successTrace ps title file_path download_url).take k)).tasks
            ("task:" ++ task_id) = some (h₁, ttl₁) ∧
        h₁.status = "COMPLETED") := by
  constructor
  · intro l₁ l₂ heq
    rw [successTrace_eq] at heq
    obtain ⟨hA, -⟩ := append_singleton_decomp _ _
      (successA_ne_addHistory ps title file_path download_url) l₁ l₂ heq
    rw [hA]
    exact List.mem_cons_of_mem _
      (List.mem_append_right _ (List.mem_cons_self _ _))
  · intro k e he hid
    rw [successTrace_eq] at he ⊢
    by_cases hk :
        k ≤ (startOp :: ps.map progressOp ++
          [completeOp title file_path download_url]).length
    · rw [List.take_append_of_le_length hk] at he
      have hhist := runOps_updates_history task_id now
        ((startOp :: ps.map progressOp ++
          [completeOp title file_path download_url]).take k)
        (fun o ho => successA_updates ps title file_path download_url o
          (List.mem_of_mem_take ho)) st
      rw [hhist] at he
      exact absurd hid (hfresh e he)
    · have hlen :
          ((startOp :: ps.map progressOp ++
            [completeOp title file_path download_url]) ++
              [RunnerOp.addHistory]).length ≤ k := by
        simp only [List.length_append, List.length_cons, List.length_map,
          List.length_nil] at hk ⊢
        omega
      rw [List.take_of_length_le hlen]
      obtain ⟨h₁, hh, hst⟩ := runOps_complete_status task_id now
        (startOp :: ps.map progressOp)
        (fun o ho => successA_updates ps title file_path download_url o
          (by
            rcases List.mem_cons.1 ho with rfl | ho
            · exact List.mem_cons_self _ _
            · exact List.mem_cons_of_mem _ (List.mem_append_left _ ho)))
        title file_path download_url st h₀ ttl₀ hex
      refine ⟨h₁, TASK_TTL_SECONDS, ?_, hst⟩
      rw [runOps_append_singleton]
      exact hh

/-- Witness for `terminal_write_before_history` on the taken store (its
history is empty, the record for `t1` exists). -/
theorem terminal_write_before_history_witness :
    takenStore.tasks ("task:" ++ "t1") = some (oldHash, 3600) ∧
    (∀ e ∈ takenStore.history, e.1 ≠ "t1") ∧
    (∀ l₁ l₂,
      successTrace ["10%"] "T" "/d/x.mp4" "/downloads/x.mp4" =
        l₁ ++ RunnerOp.addHistory :: l₂ →
      completeOp "T" "/d/x.mp4" "/downloads/x.mp4" ∈ l₁) :=
  ⟨rfl, by simp [takenStore],
   (terminal_write_before_history ["10%"] "T" "/d/x.mp4"
       "/downloads/x.mp4" "t1" 0 takenStore oldHash 3600 rfl
       (by simp [takenStore])).1⟩

end Gravity
